import Mathlib

/-!
Verification development for the `solver` repository (Rust).

We shallowly embed the data structures and operations of the crates
`solver-graph`/`solver_graph` (compact arrays, binary min-heap priority
queue, Dijkstra-style `shortest_path`) and `solver-vrp`/`solver_vrp`
(problem model with plan units, solutions, the solver iteration loop and
the seeded random source), and prove or refute the specification claims
about them.

Conventions of the embedding:
* Rust `usize` indices become `Nat`; `i32` weights become `Int`;
  `f64` scalars that are only compared/divided become `ℚ`.
* A Rust `panic!`/`expect`/`unimplemented!` is modelled by an explicit
  error value (`Option`/`Except`/a dedicated constructor), never by a
  default value, so that panicking executions stay observable.
* Rust `while` loops whose termination is not structural are given an
  explicit fuel parameter; running out of fuel is a distinguished
  outcome, distinct from every real outcome of the source program.
* `HashMap`s that are only used through `insert`/`get` are modelled as
  functions `K → Option V` with pointwise update; `HashSet`s of indices
  as lists queried through membership.
-/

namespace SolverGraph

/-- Embedding of `solver-graph/src/small_array.rs`: the size-specialised
inline array `SmallArray<V>`.  Fixed variants carry exactly as many
elements as their name says; `Dynamic` is the heap fallback. -/
inductive SmallArray (V : Type) where
  | Empty : SmallArray V
  | One (a0 : V) : SmallArray V
  | Two (a0 a1 : V) : SmallArray V
  | Three (a0 a1 a2 : V) : SmallArray V
  | Four (a0 a1 a2 a3 : V) : SmallArray V
  | Five (a0 a1 a2 a3 a4 : V) : SmallArray V
  | Six (a0 a1 a2 a3 a4 a5 : V) : SmallArray V
  | Seven (a0 a1 a2 a3 a4 a5 a6 : V) : SmallArray V
  | Eight (a0 a1 a2 a3 a4 a5 a6 a7 : V) : SmallArray V
  | Nine (a0 a1 a2 a3 a4 a5 a6 a7 a8 : V) : SmallArray V
  | Ten (a0 a1 a2 a3 a4 a5 a6 a7 a8 a9 : V) : SmallArray V
  | Dynamic (l : List V) : SmallArray V
  deriving DecidableEq, Repr, Inhabited

/-- `SmallArray::as_slice`: view the contents as a sequence. -/
def SmallArray.asSlice {V : Type} : SmallArray V → List V
  | .Empty => []
  | .One a0 => [a0]
  | .Two a0 a1 => [a0, a1]
  | .Three a0 a1 a2 => [a0, a1, a2]
  | .Four a0 a1 a2 a3 => [a0, a1, a2, a3]
  | .Five a0 a1 a2 a3 a4 => [a0, a1, a2, a3, a4]
  | .Six a0 a1 a2 a3 a4 a5 => [a0, a1, a2, a3, a4, a5]
  | .Seven a0 a1 a2 a3 a4 a5 a6 => [a0, a1, a2, a3, a4, a5, a6]
  | .Eight a0 a1 a2 a3 a4 a5 a6 a7 => [a0, a1, a2, a3, a4, a5, a6, a7]
  | .Nine a0 a1 a2 a3 a4 a5 a6 a7 a8 => [a0, a1, a2, a3, a4, a5, a6, a7, a8]
  | .Ten a0 a1 a2 a3 a4 a5 a6 a7 a8 a9 => [a0, a1, a2, a3, a4, a5, a6, a7, a8, a9]
  | .Dynamic l => l

/-- The `Reducer` enum of `small_array.rs` (the borrowed array in
`SumArray` is embedded by value). -/
inductive Reducer (V : Type) where
  | Sum : Reducer V
  | SumArray (a : SmallArray V) : Reducer V
  | SumArrays (a : SmallArray (SmallArray V)) : Reducer V

/-- `impl Reduce for SmallArray`: combine two optional weights.  The
source's `unimplemented!()` arm is modelled as `none` (a panic).  In the
fourth source arm the guard `!a.is_empty()` on a `[V; 1]` array is
always true, so only the emptiness of `b` is tested. -/
def SmallArray.reduce {V : Type} [Add V] :
    SmallArray V → Reducer V → Option (SmallArray V)
  | .Empty, .SumArray .Empty => some .Empty
  | .Empty, .SumArray (.One b) => some (.One b)
  | .One a, .SumArray .Empty => some (.One a)
  | .One a, .SumArray b =>
      match b.asSlice with
      | [] => none
      | x :: _ => some (.One (a + x))
  | _, _ => none

/-!
Embedding of `solver_graph/src/queue.rs`: `PriorityQueue<V: Ord>` is a
binary min-heap stored in a `SmallArray::Dynamic` vector.  Both
constructors (`new`, `with_capacity`) produce the `Dynamic` variant and
`push`/`pop` keep it, so the heap state is embedded directly as the
underlying `List V`.  The `Ord` bound is embedded as an explicit
comparison `le : V → V → Bool` (a total preorder); the source's
`a >= b` is `le b a` and `a < b` is `!le b a`.
-/

variable {V : Type}

/-- Indexing `self.heap[i]` (in all call sites below the index is in
bounds, so the `Inhabited` default is never observable). -/
def nth [Inhabited V] (l : List V) (i : Nat) : V := l.getD i default

/-- `Vec::swap(i, j)`.  Out-of-bounds indices would panic in Rust; every
call site below is in bounds, where the guard is true. -/
def lswap [Inhabited V] (l : List V) (i j : Nat) : List V :=
  if i < l.length ∧ j < l.length then (l.set i (nth l j)).set j (nth l i) else l

/-- `PriorityQueue::heapify_up`, with an explicit fuel (the loop index
strictly decreases, so fuel `i` always suffices; see `heapifyUp`). -/
def heapifyUpAux [Inhabited V] (le : V → V → Bool) :
    Nat → List V → Nat → List V
  | _, l, 0 => l
  | 0, l, _ + 1 => l
  | fuel + 1, l, i + 1 =>
      let p := (i + 1 - 1) / 2
      if le (nth l p) (nth l (i + 1)) then l
      else heapifyUpAux le fuel (lswap l (i + 1) p) p

/-- `PriorityQueue::heapify_up(index)`: sift the element at `index` up
while it is smaller than its parent. -/
def heapifyUp [Inhabited V] (le : V → V → Bool) (l : List V) (i : Nat) : List V :=
  heapifyUpAux le i l i

/-- One step of `PriorityQueue::heapify_down`: the index of the smallest
among `index` and its two children (the source's `smallest`). -/
def downSmallest [Inhabited V] (le : V → V → Bool) (l : List V) (i : Nat) : Nat :=
  let len := l.length
  let lc := 2 * i + 1
  let rc := 2 * i + 2
  let s := if lc < len ∧ ¬ le (nth l i) (nth l lc) then lc else i
  if rc < len ∧ ¬ le (nth l s) (nth l rc) then rc else s

/-- `PriorityQueue::heapify_down`, with an explicit fuel (the loop index
strictly increases and stays below the fixed length, so fuel
`l.length` always suffices; see `heapifyDown`). -/
def heapifyDownAux [Inhabited V] (le : V → V → Bool) :
    Nat → List V → Nat → List V
  | 0, l, _ => l
  | fuel + 1, l, i =>
      let s := downSmallest le l i
      if s ≠ i then heapifyDownAux le fuel (lswap l i s) s else l

/-- `PriorityQueue::heapify_down(index)`: sift the element at `index`
down while a child is smaller. -/
def heapifyDown [Inhabited V] (le : V → V → Bool) (l : List V) (i : Nat) : List V :=
  heapifyDownAux le l.length l i

namespace PriorityQueue

/-- `PriorityQueue::push`: append, then sift up from the last slot. -/
def push [Inhabited V] (le : V → V → Bool) (l : List V) (v : V) : List V :=
  let l' := l ++ [v]
  heapifyUp le l' (l'.length - 1)

/-- `PriorityQueue::pop`: swap root and last, remove the last element,
sift the new root down; `none` on the empty queue. -/
def pop [Inhabited V] (le : V → V → Bool) (l : List V) : Option V × List V :=
  if l.isEmpty then (none, l)
  else
    let last := l.length - 1
    let l1 := lswap l 0 last
    let popped := l1.getLast?
    let l2 := l1.dropLast
    (popped, heapifyDown le l2 0)

end PriorityQueue

/-!
Embedding of `solver_graph/src/graph.rs` and `solver_graph/src/ops.rs`,
at the instantiation used by the crate (`P = usize`, `V = i32`, i.e.
`Nat` positions and `Int` node/weight values).
-/

/-- `Edge<P, V>`: a directed arc with optional weights. -/
structure Edge where
  from_ : Nat
  to_ : Nat
  weights : Option (SmallArray Int)
  deriving DecidableEq, Repr

/-- `Graph<V, P>`: node values plus one `SmallArray` of outgoing edges
per node index. -/
structure Graph where
  nodes : List Int
  edges : List (SmallArray Edge)
  deriving DecidableEq, Repr

/-- Rust `Ord` on `&[i32]` (lexicographic, then by length), as `≤`. -/
def sliceLe : List Int → List Int → Bool
  | [], _ => true
  | _ :: _, [] => false
  | a :: as_, b :: bs => if a < b then true else if b < a then false else sliceLe as_ bs

/-- Rust `Ord` on `&[i32]`, as `<`. -/
def sliceLt : List Int → List Int → Bool
  | _, [] => false
  | [], _ :: _ => true
  | a :: as_, b :: bs => if a < b then true else if b < a then false else sliceLt as_ bs

/-- Rust derived `Ord` on the queue entries `(P, SmallArray<V>)`:
lexicographic on the pair, with `SmallArray` compared through
`as_slice` (its `Ord` impl), as `≤`. -/
def pairLe (a b : Nat × SmallArray Int) : Bool :=
  a.1 < b.1 ∨ (a.1 = b.1 ∧ sliceLe a.2.asSlice b.2.asSlice)

/-- Pointwise-update embedding of `HashMap::insert`. -/
def mapInsert {K W : Type} [DecidableEq K] (m : K → Option W) (k : K) (w : W) :
    K → Option W :=
  fun k' => if k' = k then some w else m k'

/-- Outcome of `shortest_path`.  `panicked` stands for a Rust panic
(missing node during reconstruction, or an `unimplemented!()` reducer
arm); `outOfFuel` is the embedding's artefact for a loop still running. -/
inductive SPResult where
  | found (path : List Int) : SPResult
  | noPath : SPResult
  | panicked : SPResult
  | outOfFuel : SPResult
  deriving DecidableEq, Repr

/-- The path-reconstruction `while let` loop of `shortest_path`: walk
predecessors from `current`, pushing each visited node's value (a panic
if the node is missing), stopping at `start` or at a node without a
predecessor entry, then reverse. -/
def reconstructLoop (g : Graph) (prev : Nat → Option (Option Nat)) (start : Nat) :
    Nat → Nat → List Int → SPResult
  | fuel, current, path =>
    match prev current with
    | some (some p) =>
        match fuel with
        | 0 => .outOfFuel
        | fuel + 1 =>
            match g.nodes.get? current with
            | none => .panicked
            | some v =>
                let path := path ++ [v]
                if current = start then .found path.reverse
                else reconstructLoop g prev start fuel p path
    | _ => .found path.reverse

/-- The edge-relaxation `for` loop body of `shortest_path`: combine the
popped weight with each outgoing edge's weight via the reducer, and
record/update strictly smaller candidates.  `none` is a panicking
reducer call. -/
def relaxEdges (node : Nat) (weight : SmallArray Int) :
    List Edge →
    (Nat → Option (SmallArray Int)) × (Nat → Option (Option Nat)) × List (Nat × SmallArray Int) →
    Option ((Nat → Option (SmallArray Int)) × (Nat → Option (Option Nat)) × List (Nat × SmallArray Int))
  | [], st => some st
  | e :: es, (weights, prev, queue) =>
      match weight.reduce (Reducer.SumArray (e.weights.getD .Empty)) with
      | none => none
      | some w =>
          match weights e.to_ with
          | some d =>
              if sliceLt w.asSlice d.asSlice then
                relaxEdges node weight es
                  (mapInsert weights e.to_ w, mapInsert prev e.to_ (some node),
                    PriorityQueue.push pairLe queue (e.to_, w))
              else relaxEdges node weight es (weights, prev, queue)
          | none =>
              relaxEdges node weight es
                (mapInsert weights e.to_ w, mapInsert prev e.to_ (some node),
                  PriorityQueue.push pairLe queue (e.to_, w))

/-- The main `while let Some(..) = queue.pop()` loop of `shortest_path`. -/
def spLoop (g : Graph) (start to_ : Nat) :
    Nat → (Nat → Option (SmallArray Int)) → (Nat → Option (Option Nat)) →
    List (Nat × SmallArray Int) → SPResult
  | 0, _, _, _ => .outOfFuel
  | fuel + 1, weights, prev, queue =>
      match PriorityQueue.pop pairLe queue with
      | (none, _) => .noPath
      | (some (node, weight), queue') =>
          if node = to_ then reconstructLoop g prev start fuel node []
          else
            match g.edges.get? node with
            | none => spLoop g start to_ fuel weights prev queue'
            | some edges =>
                match relaxEdges node weight edges.asSlice (weights, prev, queue') with
                | none => .panicked
                | some (weights', prev', queue'') =>
                    spLoop g start to_ fuel weights' prev' queue''

/-- `ops.rs: shortest_path(graph, from, to)`, with fuel for the two
source loops. -/
def shortestPath (fuel : Nat) (g : Graph) (from_ to_ : Nat) : SPResult :=
  let weights : Nat → Option (SmallArray Int) :=
    mapInsert (fun _ => none) from_ .Empty
  let prev : Nat → Option (Option Nat) := fun _ => none
  let queue := PriorityQueue.push pairLe [] (from_, SmallArray.Empty)
  spLoop g from_ to_ fuel weights prev queue

/-- `graph.rs` test fixture `sample_nodes()`: four nodes, all with value
`0`. -/
def sampleNodes : List Int := [0, 0, 0, 0]

/-- `graph.rs` test fixture `sample_weighted_edges()` after the
`edges`/`weighted_edge` helpers: non-empty per-node lists become
`Dynamic`, the empty one `Empty`, and each single weight `One`. -/
def sampleWeightedEdges : List (SmallArray Edge) :=
  [ .Dynamic [⟨0, 1, some (.One 1)⟩, ⟨0, 2, some (.One 100)⟩],
    .Dynamic [⟨1, 2, some (.One 1)⟩],
    .Dynamic [⟨2, 0, some (.One 2)⟩],
    .Empty ]

/-- The graph `graph![sample_nodes(), sample_weighted_edges()]` used by
`test_shortest_path`. -/
def sampleWeightedGraph : Graph := ⟨sampleNodes, sampleWeightedEdges⟩

end SolverGraph

namespace SolverVrp

/-!
Embedding of `solver_vrp/src/solution.rs`.  The `f64` scalars (`value`,
`cost`, `duration`) are only ever constructed and compared, so they are
embedded as `ℚ`.
-/

/-- `SolutionVehicle { id, route, cost }`. -/
structure SolutionVehicle where
  id : String
  route : List String
  cost : ℚ
  deriving DecidableEq, Repr

/-- `SolutionStop { id, reason }`: an unplanned stop with its reason. -/
structure SolutionStop where
  id : String
  reason : String
  deriving DecidableEq, Repr

/-- `SolutionStatistics { iterations, duration }`. -/
structure SolutionStatistics where
  iterations : Nat
  duration : ℚ
  deriving DecidableEq, Repr

/-- `Solution`: per-vehicle routes, unplanned stops, scalar value. -/
structure Solution where
  vehicles : List SolutionVehicle
  unplanned : List SolutionStop
  value : ℚ
  statistics : Option SolutionStatistics
  deriving DecidableEq, Repr

/-- `Solution::new()` (also `Default::default()`). -/
def Solution.new : Solution :=
  { vehicles := [], unplanned := [], value := 0, statistics := none }

/-- `Solution::best(self, other)`: keep the candidate with the strictly
lower value, `other` otherwise. -/
def Solution.best (self other : Solution) : Solution :=
  if self.value < other.value then self else other

/-!
Embedding of the solver loop of `solver_vrp/src/solver.rs`.  The solver
treats its `Model` opaquely (it is only handed to the operators), so the
embedding is parametric in the model type `M`; a boxed `dyn Operator`
is its `execute` function `M → Solution → Option Solution`.
-/

/-- `Solver`: model, registered operators, `SolverOptions`
(`max_iterations`), current solution and iteration counter. -/
structure Solver (M : Type) where
  model : M
  operators : List (M → Solution → Option Solution)
  maxIterations : Nat
  solution : Option Solution
  iterationCount : Nat

/-- `Solver::execute_operators`: take the current solution (default if
none), let each operator in registration order propose a candidate, keep
`candidate.best(current)`, and store the result. -/
def Solver.executeOperators {M : Type} (s : Solver M) : Solver M :=
  let sol := s.solution.getD Solution.new
  let sol := s.operators.foldl
    (fun solution op =>
      match op s.model solution with
      | some c => c.best solution
      | none => solution)
    sol
  { s with solution := some sol }

/-- `Solver::increment_iteration`. -/
def Solver.incrementIteration {M : Type} (s : Solver M) : Solver M :=
  { s with iterationCount := s.iterationCount + 1 }

/-- The `while self.options.max_iterations > self.iteration_count` loop
of `Solver::solve`, with fuel (each pass increments the counter by one,
so fuel `max_iterations - iteration_count` always suffices; see
`Solver.solveState`). -/
def Solver.solveLoop {M : Type} : Nat → Solver M → Solver M
  | 0, s => s
  | fuel + 1, s =>
      if s.maxIterations > s.iterationCount then
        Solver.solveLoop fuel (s.executeOperators.incrementIteration)
      else s

/-- The solver state at exit of the `solve` loop. -/
def Solver.solveState {M : Type} (s : Solver M) : Solver M :=
  Solver.solveLoop (s.maxIterations - s.iterationCount) s

/-- `Solver::solve`: run the loop and return the final solution. -/
def Solver.solve {M : Type} (s : Solver M) : Option Solution :=
  s.solveState.solution

/-- `SolverBuilder::model` then `build()`: a fresh solver starts with no
solution and iteration counter `0`; `plan` may seed a solution. -/
def Solver.build {M : Type} (model : M)
    (operators : List (M → Solution → Option Solution))
    (maxIterations : Nat) (seed : Option Solution) : Solver M :=
  { model := model, operators := operators, maxIterations := maxIterations,
    solution := seed, iterationCount := 0 }

/-!
Embedding of `solver_vrp/src/random.rs`.  `StdRng` (from the external
`rand` crate) is embedded abstractly as the deterministic stream of
`f64` draws it would produce (as `ℚ`) together with a position; each
`f64()` call consumes one element of the stream.
-/

/-- `Random`: a seeded pseudo-random source. -/
structure Random where
  stream : Nat → ℚ
  pos : Nat

/-- `Random::f64`: one uniform draw, advancing the generator state. -/
def Random.f64 (r : Random) : ℚ × Random :=
  (r.stream r.pos, { r with pos := r.pos + 1 })

/-- `Random::chance((numerator, denominator))`: `true` outright on equal
arguments, otherwise one `f64` draw compared against the ratio. -/
def Random.chance (r : Random) (arg : ℚ × ℚ) : Bool × Random :=
  let (numerator, denominator) := arg
  if numerator = denominator then (true, r)
  else
    let (x, r') := r.f64
    (decide (x < numerator / denominator), r')

end SolverVrp

namespace SolverVrpModel

/-!
Embedding of `solver-vrp/src/model.rs` (`Model::from(input)`) together
with the parts of `solver-vrp/src/schema.rs` that `Model::from` reads.
Input fields `Model::from` never touches (`quantity`,
`start_time_windows`, `capacity`, `speed`, `distance_matrix`,
`options`) are omitted.  A panic (`panic!` or `expect`) during
construction is the `panicked` outcome, carrying the panic message.
-/

/-- `schema::Location` (`f64` coordinates as `ℚ`). -/
structure Location where
  lat : ℚ
  lon : ℚ
  deriving DecidableEq, Repr

/-- `schema::Stop` as read by `Model::from`: id, optional precedence
list, location. -/
structure InputStop where
  id : String
  precedes : Option (List String)
  location : Location
  deriving DecidableEq, Repr

/-- `schema::InitialStop`. -/
structure InitialStop where
  id : String
  deriving DecidableEq, Repr

/-- `schema::Vehicle` as read by `Model::from`: id and optional initial
stops. -/
structure InputVehicle where
  id : String
  initialStops : Option (List InitialStop)
  deriving DecidableEq, Repr

/-- `schema::Input` as read by `Model::from`. -/
structure Input where
  stops : List InputStop
  vehicles : List InputVehicle
  deriving DecidableEq, Repr

/-- `model::Stop`: id, index and location of a model stop. -/
structure Stop where
  id : String
  index : Nat
  location : Location
  deriving DecidableEq, Repr

/-- `model::PlanUnit`: unit index and the indices of its stops. -/
structure PlanUnit where
  index : Nat
  stops : List Nat
  deriving DecidableEq, Repr

/-- `model::Vehicle`: id, index, and resolved initial stops. -/
structure Vehicle where
  id : String
  index : Nat
  stops : List Stop
  deriving DecidableEq, Repr

/-- `model::Model`. -/
structure Model where
  stops : List Stop
  planUnits : List PlanUnit
  vehicles : List Vehicle
  deriving DecidableEq, Repr

/-- Construction either yields a model or panics with a message. -/
inductive BuildResult where
  | ok (m : Model) : BuildResult
  | panicked (msg : String) : BuildResult
  deriving DecidableEq, Repr

/-- The first loop of `Model::from`: build the model stops and the
`stop_map` from id to index (`HashMap::insert`, so a later duplicate id
overrides an earlier one). -/
def buildStops (stops : List InputStop) : List Stop :=
  stops.enum.map fun (index, stop) =>
    { id := stop.id, index := index, location := stop.location }

/-- `stop_map.get(id)` after all inserts: the index of the last stop
with this id. -/
def stopMap (stops : List InputStop) (id : String) : Option Nat :=
  (stops.enum.filter (fun p => p.2.id = id)).getLast?.map (·.1)

/-- The plan-unit loop of `Model::from`, processing the enumerated stops
in order with the accumulated units and the claimed-index set. -/
def buildPlanUnits (sm : String → Option Nat) :
    List (Nat × InputStop) → List PlanUnit → List Nat →
    Except String (List PlanUnit)
  | [], units, _ => .ok units
  | (index, stop) :: rest, units, claimed =>
      if index ∈ claimed then buildPlanUnits sm rest units claimed
      else
        let planUnit : PlanUnit := { index := units.length, stops := [index] }
        if (stop.precedes.map List.length).getD 0 > 1 then
          .error ("stop " ++ stop.id ++ " has too many precedes")
        else
          match stop.precedes.bind List.head? with
          | some id =>
              match sm id with
              | none => .error "stop precedes not found"
              | some nextIndex =>
                  if nextIndex ∈ claimed then
                    .error ("stop " ++ id ++ " is already part of a plan unit")
                  else
                    buildPlanUnits sm rest
                      (units ++ [{ planUnit with stops := planUnit.stops ++ [nextIndex] }])
                      (index :: nextIndex :: claimed)
          | none => buildPlanUnits sm rest (units ++ [planUnit]) (index :: claimed)

/-- Resolution of one vehicle's `initial_stops`: each id is looked up in
the stop map (`expect` panics on a dangling id) and the model stop at
that index is taken (`stops_vec[stop_index]` would panic out of bounds,
which cannot happen for a map built from the same stops). -/
def resolveInitialStops (sm : String → Option Nat) (stopsVec : List Stop) :
    List InitialStop → Except String (List Stop)
  | [] => .ok []
  | s :: rest =>
      match sm s.id with
      | none => .error "initial stop not found in stops"
      | some stopIndex =>
          match stopsVec[stopIndex]? with
          | none => .error "index out of bounds"
          | some modelStop =>
              (resolveInitialStops sm stopsVec rest).map (modelStop :: ·)

/-- The vehicle loop of `Model::from`: each enumerated input vehicle'\''s
initial stops are resolved through the stop map. -/
def buildVehicles (sm : String → Option Nat) (stopsVec : List Stop) :
    List (Nat × InputVehicle) → Except String (List Vehicle)
  | [] => .ok []
  | (index, vehicle) :: rest =>
      match resolveInitialStops sm stopsVec ((vehicle.initialStops).getD []) with
      | .error msg => .error msg
      | .ok stops =>
          (buildVehicles sm stopsVec rest).map
            ({ id := vehicle.id, index := index, stops := stops } :: ·)

/-- `Model::from(input)`. -/
def Model.from_ (input : Input) : BuildResult :=
  let stopsVec := buildStops input.stops
  let sm := stopMap input.stops
  match buildPlanUnits sm input.stops.enum [] [] with
  | .error msg => .panicked msg
  | .ok planUnits =>
      match buildVehicles sm stopsVec input.vehicles.enum with
      | .error msg => .panicked msg
      | .ok vehicles =>
          .ok { stops := stopsVec, planUnits := planUnits, vehicles := vehicles }

end SolverVrpModel

/-!
Claim theorems.  Concrete inputs used by counterexamples and witnesses
are declared first.
-/

open SolverGraph SolverVrp SolverVrpModel

/-- A solution that ties `Solution.new` on value but differs from it. -/
def solTie : Solution :=
  { vehicles := [], unplanned := [{ id := "s1", reason := "capacity" }],
    value := 0, statistics := none }

/-- A solution of value `0`. -/
def solLow : Solution :=
  { vehicles := [], unplanned := [], value := 0, statistics := none }

/-- A solution of value `1`. -/
def solHigh : Solution :=
  { vehicles := [], unplanned := [], value := 1, statistics := none }

/-- An input whose first stop declares two precedence targets. -/
def tooManyPrecedesInput : Input :=
  { stops :=
      [ { id := "a", precedes := some ["b", "c"], location := ⟨0, 0⟩ },
        { id := "b", precedes := none, location := ⟨0, 0⟩ },
        { id := "c", precedes := none, location := ⟨0, 0⟩ } ],
    vehicles := [] }

/-- An input where the precedence target precedes its source in stop
order: stop `b` (index 1) declares `a` (index 0). -/
def backwardPrecedesInput : Input :=
  { stops :=
      [ { id := "a", precedes := none, location := ⟨0, 0⟩ },
        { id := "b", precedes := some ["a"], location := ⟨0, 0⟩ } ],
    vehicles := [] }

/-- A solver with no operators, no seed and `max_iterations = 0`. -/
def emptySolver : Solver Unit := Solver.build () [] 0 none

/-- The empty solver seeded with `Solution::new`. -/
def seededSolver : Solver Unit := Solver.build () [] 0 (some Solution.new)

/-- A fresh deterministic random source (stream of zeros). -/
def zeroRandom : Random := { stream := fun _ => 0, pos := 0 }


namespace SolverGraph

variable {V : Type}

/-- The binary min-heap property of `queue.rs`: every non-root entry is
at least its parent. -/
def IsHeap [Inhabited V] (le : V → V → Bool) (l : List V) : Prop :=
  ∀ i : Nat, 0 < i → i < l.length → le (nth l ((i - 1) / 2)) (nth l i) = true

/-- Invariant of the `heapify_up` loop: the heap property holds at every
edge not pointing into `i`, and `i`'s children (if any) are already at
least `i`'s parent. -/
def UpOk [Inhabited V] (le : V → V → Bool) (l : List V) (i : Nat) : Prop :=
  (∀ j, 0 < j → j < l.length → j ≠ i → le (nth l ((j - 1) / 2)) (nth l j) = true) ∧
  (0 < i → ∀ j, j < l.length → (j - 1) / 2 = i →
    le (nth l ((i - 1) / 2)) (nth l j) = true)

/-- Invariant of the `heapify_down` loop: the heap property holds at
every edge not leaving `i`, and `i`'s children (if any) are already at
least `i`'s parent. -/
def DownOk [Inhabited V] (le : V → V → Bool) (l : List V) (i : Nat) : Prop :=
  (∀ j, 0 < j → j < l.length → (j - 1) / 2 ≠ i →
    le (nth l ((j - 1) / 2)) (nth l j) = true) ∧
  (0 < i → ∀ j, j < l.length → (j - 1) / 2 = i →
    le (nth l ((i - 1) / 2)) (nth l j) = true)

/-- The queue states reachable by a sequence of `push`/`pop` calls from
a fresh (`new`/`with_capacity`) priority queue. -/
inductive ReachablePQ [Inhabited V] (le : V → V → Bool) : List V → Prop where
  | empty : ReachablePQ le []
  | push (l : List V) (v : V) :
      ReachablePQ le l → ReachablePQ le (PriorityQueue.push le l v)
  | pop (l : List V) :
      ReachablePQ le l → ReachablePQ le (PriorityQueue.pop le l).2

end SolverGraph

/-- The usual order on `Nat` as a boolean comparison, for witnesses. -/
def natLe : Nat → Nat → Bool := fun a b => decide (a ≤ b)

/-- A two-element queue built by two pushes. -/
def pqW : List Nat := PriorityQueue.push natLe (PriorityQueue.push natLe [] 3) 1

namespace SolverVrpModel

/-!
Specification-side apparatus for the plan-unit construction of
`Model::from`: the resolved precedence target of a stop index, and the
closed form of the plan-unit list produced by the construction loop on
well-formed inputs.
-/

/-- The resolved precedence target of the stop at index `i`: the stop
map applied to the first entry of its `precedes` list. -/
def stopTarget (stops : List InputStop) (i : Nat) : Option Nat :=
  match stops[i]? with
  | none => none
  | some s =>
      match s.precedes.bind List.head? with
      | none => none
      | some id => stopMap stops id

/-- Whether index `i` is the resolved precedence target of some stop. -/
def isTargetB (stops : List InputStop) (i : Nat) : Bool :=
  (List.range stops.length).any fun k => stopTarget stops k == some i

/-- Number of non-target indices below `k` (the position such an index'
plan unit gets in the unit list). -/
def nonTargetCount (stops : List InputStop) (k : Nat) : Nat :=
  ((List.range k).filter fun j => ! isTargetB stops j).length

/-- The plan unit opened at a non-target index `k`, `none` at targets
(which are absorbed into their source's unit). -/
def specUnitF (stops : List InputStop) (k : Nat) : Option PlanUnit :=
  if isTargetB stops k then none
  else some { index := nonTargetCount stops k,
              stops := k :: (stopTarget stops k).toList }

/-- The plan units contributed by the first `n` stop indices. -/
def specUnitsUpTo (stops : List InputStop) (n : Nat) : List PlanUnit :=
  (List.range n).filterMap (specUnitF stops)

/-- Closed form of the whole plan-unit list. -/
def specUnits (stops : List InputStop) : List PlanUnit :=
  specUnitsUpTo stops stops.length

/-- Every stop's `precedes` list has at most one entry. -/
def precedesOkB (input : Input) : Bool :=
  input.stops.all fun s => (s.precedes.map List.length).getD 0 ≤ 1

/-- Every declared precedence target id resolves through the stop map. -/
def targetsResolveB (input : Input) : Bool :=
  (List.range input.stops.length).all fun i =>
    match input.stops[i]? with
    | none => true
    | some s =>
        match s.precedes.bind List.head? with
        | none => true
        | some id => (stopMap input.stops id).isSome

/-- No two stops resolve to the same precedence target. -/
def targetsDistinctB (input : Input) : Bool :=
  (List.range input.stops.length).all fun i =>
    (List.range input.stops.length).all fun j =>
      match stopTarget input.stops i, stopTarget input.stops j with
      | some k, some k' => !(k == k') || (i == j)
      | _, _ => true

/-- Every resolved precedence target lies strictly after its source in
stop order. -/
def targetsForwardB (input : Input) : Bool :=
  (List.range input.stops.length).all fun i =>
    match stopTarget input.stops i with
    | none => true
    | some j => decide (i < j)

/-- No resolved precedence target declares a precedence of its own. -/
def noChainB (input : Input) : Bool :=
  (List.range input.stops.length).all fun i =>
    match stopTarget input.stops i with
    | none => true
    | some j => (stopTarget input.stops j).isNone

/-- Every vehicle's initial-stop ids resolve through the stop map. -/
def vehiclesResolveB (input : Input) : Bool :=
  input.vehicles.all fun v =>
    (v.initialStops.getD []).all fun st => (stopMap input.stops st.id).isSome

end SolverVrpModel

/-- A pickup/delivery chain: `a` precedes `b`, `b` precedes `c`. -/
def chainPrecedesInput : SolverVrpModel.Input :=
  { stops :=
      [ { id := "a", precedes := some ["b"], location := ⟨0, 0⟩ },
        { id := "b", precedes := some ["c"], location := ⟨0, 0⟩ },
        { id := "c", precedes := none, location := ⟨0, 0⟩ } ],
    vehicles := [] }

/-- The model the construction produces for `chainPrecedesInput`: `b`'s
own precedence is silently dropped because `b` was already claimed by
`a`'s unit, so `b` and `c` end up in different plan units. -/
def chainModel : SolverVrpModel.Model :=
  { stops :=
      [ { id := "a", index := 0, location := ⟨0, 0⟩ },
        { id := "b", index := 1, location := ⟨0, 0⟩ },
        { id := "c", index := 2, location := ⟨0, 0⟩ } ],
    planUnits := [ { index := 0, stops := [0, 1] }, { index := 1, stops := [2] } ],
    vehicles := [] }

/-- The pickup/delivery input of the crate's `test_solver` test. -/
def pickupDeliveryInput : SolverVrpModel.Input :=
  { stops :=
      [ { id := "pickup", precedes := some ["delivery"], location := ⟨0, 0⟩ },
        { id := "delivery", precedes := none, location := ⟨0, 0⟩ } ],
    vehicles := [ { id := "vehicle",
                    initialStops := some [⟨"pickup"⟩, ⟨"pickup"⟩] } ] }

namespace SolverVrp

/-- `execute_operators` always stores `Some` solution back. -/
theorem Solver.executeOperators_isSome {M : Type} (s : Solver M) :
    s.executeOperators.solution.isSome := by
  simp [Solver.executeOperators]

/-- The solve loop never discards a present solution. -/
theorem Solver.solveLoop_isSome {M : Type} :
    ∀ (fuel : Nat) (s : Solver M), s.solution.isSome →
      (Solver.solveLoop fuel s).solution.isSome := by
  intro fuel
  induction fuel with
  | zero => intro s h; simpa [Solver.solveLoop] using h
  | succ fuel ih =>
      intro s h
      rw [Solver.solveLoop]
      split
      · exact ih _ (Solver.executeOperators_isSome s)
      · exact h

/-- Exit value of the iteration counter: the loop runs `max - count`
times, one increment per pass. -/
theorem Solver.solveLoop_count {M : Type} :
    ∀ (fuel : Nat) (s : Solver M),
      s.maxIterations - s.iterationCount ≤ fuel →
      (Solver.solveLoop fuel s).iterationCount =
        max s.iterationCount s.maxIterations := by
  intro fuel
  induction fuel with
  | zero =>
      intro s h
      have : s.maxIterations ≤ s.iterationCount := by omega
      simp [Solver.solveLoop]
      omega
  | succ fuel ih =>
      intro s h
      rw [Solver.solveLoop]
      split
      · rename_i hcond
        have h2 : (s.executeOperators.incrementIteration).maxIterations -
            (s.executeOperators.incrementIteration).iterationCount ≤ fuel := by
          simp [Solver.incrementIteration, Solver.executeOperators]
          omega
        have h3 := ih (s.executeOperators.incrementIteration) h2
        rw [h3]
        simp [Solver.incrementIteration, Solver.executeOperators]
        omega
      · rename_i hcond
        omega

/-- A fold over operators that all return `None` keeps the solution. -/
theorem Solver.foldl_none {M : Type} (model : M) :
    ∀ (ops : List (M → Solution → Option Solution)) (sol : Solution),
      (∀ op ∈ ops, op model sol = none) →
      ops.foldl
        (fun solution op =>
          match op model solution with
          | some c => c.best solution
          | none => solution)
        sol = sol := by
  intro ops
  induction ops with
  | nil => intro sol _; rfl
  | cons op ops ih =>
      intro sol h
      have h0 : op model sol = none := h op (List.mem_cons_self op ops)
      have : ∀ o ∈ ops, o model sol = none := fun o ho => h o (List.mem_cons_of_mem _ ho)
      simp only [List.foldl_cons, h0]
      exact ih sol this

end SolverVrp

namespace SolverGraph

section HeapLemmas

variable {V : Type} [Inhabited V] {le : V → V → Bool}

theorem nth_eq_getElem (l : List V) (i : Nat) (h : i < l.length) :
    nth l i = l[i] := by
  simp [nth, List.getD_eq_getElem?_getD, List.getElem?_eq_getElem h]

theorem length_lswap (l : List V) (i j : Nat) :
    (lswap l i j).length = l.length := by
  unfold lswap
  split <;> simp

theorem nth_lswap_fst (l : List V) (i j : Nat)
    (hi : i < l.length) (hj : j < l.length) :
    nth (lswap l i j) i = nth l j := by
  unfold lswap
  rw [if_pos ⟨hi, hj⟩]
  by_cases hij : i = j
  · subst hij
    simp [nth, List.getD_eq_getElem?_getD, List.getElem?_set, hi]
  · rw [nth, nth, List.getD_eq_getElem?_getD, List.getD_eq_getElem?_getD,
      List.getElem?_set_ne (Ne.symm hij), List.getElem?_set_eq hi]
    rfl

theorem nth_lswap_snd (l : List V) (i j : Nat)
    (hi : i < l.length) (hj : j < l.length) :
    nth (lswap l i j) j = nth l i := by
  unfold lswap
  rw [if_pos ⟨hi, hj⟩]
  rw [nth, nth, List.getD_eq_getElem?_getD, List.getD_eq_getElem?_getD,
    List.getElem?_set_eq (by simpa using hj)]
  rfl

theorem nth_lswap_other (l : List V) (i j k : Nat)
    (hki : k ≠ i) (hkj : k ≠ j) :
    nth (lswap l i j) k = nth l k := by
  unfold lswap
  split
  · rw [nth, nth, List.getD_eq_getElem?_getD, List.getD_eq_getElem?_getD,
      List.getElem?_set_ne (Ne.symm hkj), List.getElem?_set_ne (Ne.symm hki)]
    rw [nth, List.getD_eq_getElem?_getD]
  · rfl

theorem nth_append_lt (l l' : List V) (k : Nat) (h : k < l.length) :
    nth (l ++ l') k = nth l k := by
  simp [nth, List.getD_eq_getElem?_getD, List.getElem?_append, h]

theorem nth_dropLast (l : List V) (k : Nat) (h : k < l.length - 1) :
    nth l.dropLast k = nth l k := by
  rw [nth, nth, List.getD_eq_getElem?_getD, List.getD_eq_getElem?_getD,
    List.getElem?_dropLast, if_pos h]

theorem le_self (htot : ∀ a b, le a b = true ∨ le b a = true) (a : V) :
    le a a = true :=
  (htot a a).elim id id

/-- Under the heap property the root is a least element. -/
theorem isHeap_root_le (htot : ∀ a b, le a b = true ∨ le b a = true)
    (htr : ∀ a b c, le a b = true → le b c = true → le a c = true)
    (l : List V) (hl : IsHeap le l) :
    ∀ i, i < l.length → le (nth l 0) (nth l i) = true := by
  intro i
  induction i using Nat.strong_induction_on with
  | _ i ih =>
    intro hi
    rcases Nat.eq_zero_or_pos i with h0 | h0
    · subst h0
      exact le_self htot _
    · have hp : (i - 1) / 2 < i := by omega
      exact htr _ _ _ (ih _ hp (lt_trans hp hi)) (hl i h0 hi)

/-- One `heapify_up` swap preserves the sift-up invariant at the parent
index. -/
theorem upok_step (htot : ∀ a b, le a b = true ∨ le b a = true)
    (htr : ∀ a b c, le a b = true → le b c = true → le a c = true)
    (l : List V) (i : Nat) (hi : i + 1 < l.length)
    (hup : UpOk le l (i + 1))
    (hcond : ¬ le (nth l ((i + 1 - 1) / 2)) (nth l (i + 1)) = true) :
    UpOk le (lswap l (i + 1) ((i + 1 - 1) / 2)) ((i + 1 - 1) / 2) := by
  set p := (i + 1 - 1) / 2 with hp_def
  have hp_lt : p < i + 1 := by omega
  have hpl : p < l.length := lt_trans hp_lt hi
  have hle : le (nth l (i + 1)) (nth l p) = true :=
    (htot _ _).resolve_left hcond
  have nA : nth (lswap l (i + 1) p) (i + 1) = nth l p :=
    nth_lswap_fst l (i + 1) p hi hpl
  have nB : nth (lswap l (i + 1) p) p = nth l (i + 1) :=
    nth_lswap_snd l (i + 1) p hi hpl
  have nC : ∀ k, k ≠ i + 1 → k ≠ p → nth (lswap l (i + 1) p) k = nth l k :=
    fun k h1 h2 => nth_lswap_other l (i + 1) p k h1 h2
  constructor
  · intro j hj0 hjl hjp
    rw [length_lswap] at hjl
    by_cases hj1 : j = i + 1
    · subst hj1
      rw [← hp_def, nA, nB]
      exact hle
    · have hnj : nth (lswap l (i + 1) p) j = nth l j := nC j hj1 hjp
      by_cases hpar1 : (j - 1) / 2 = i + 1
      · rw [hpar1, nA, hnj]
        exact hup.2 (by omega) j hjl hpar1
      · by_cases hpar2 : (j - 1) / 2 = p
        · rw [hpar2, nB, hnj]
          exact htr _ _ _ hle (hpar2 ▸ hup.1 j hj0 hjl hj1)
        · rw [hnj, nC ((j - 1) / 2) hpar1 hpar2]
          exact hup.1 j hj0 hjl hj1
  · intro h0p j hjl hparj
    rw [length_lswap] at hjl
    have hpp1 : (p - 1) / 2 ≠ i + 1 := by omega
    have hpp2 : (p - 1) / 2 ≠ p := by omega
    rw [nC ((p - 1) / 2) hpp1 hpp2]
    by_cases hj1 : j = i + 1
    · subst hj1
      rw [nA]
      exact hup.1 p h0p hpl (by omega)
    · have hjp : j ≠ p := by omega
      rw [nC j hj1 hjp]
      have h1 : le (nth l ((p - 1) / 2)) (nth l p) = true :=
        hup.1 p h0p hpl (by omega)
      have h2 : le (nth l p) (nth l j) = true :=
        hparj ▸ hup.1 j (by omega) hjl hj1
      exact htr _ _ _ h1 h2

/-- `heapify_up` turns the sift-up invariant into the heap property. -/
theorem heapifyUpAux_isHeap (htot : ∀ a b, le a b = true ∨ le b a = true)
    (htr : ∀ a b c, le a b = true → le b c = true → le a c = true) :
    ∀ (fuel : Nat) (l : List V) (i : Nat), i ≤ fuel → i < l.length →
      UpOk le l i → IsHeap le (heapifyUpAux le fuel l i) := by
  intro fuel
  induction fuel with
  | zero =>
      intro l i hif hi hup
      obtain rfl : i = 0 := by omega
      intro j hj0 hjl
      exact hup.1 j hj0 hjl (by omega)
  | succ fuel ih =>
      intro l i hif hi hup
      match i with
      | 0 =>
          intro j hj0 hjl
          exact hup.1 j hj0 hjl (by omega)
      | i + 1 =>
          rw [heapifyUpAux]
          by_cases hcond : le (nth l ((i + 1 - 1) / 2)) (nth l (i + 1)) = true
          · rw [if_pos hcond]
            intro j hj0 hjl
            by_cases hji : j = i + 1
            · subst hji
              exact hcond
            · exact hup.1 j hj0 hjl hji
          · rw [if_neg hcond]
            apply ih
            · omega
            · rw [length_lswap]
              omega
            · exact upok_step htot htr l i hi hup hcond

/-- After `Vec::push` the appended slot satisfies the sift-up
invariant. -/
theorem upok_push (l : List V) (v : V) (hl : IsHeap le l) :
    UpOk le (l ++ [v]) l.length := by
  constructor
  · intro j hj0 hjl hji
    have hjlt : j < l.length := by
      simp only [List.length_append, List.length_cons, List.length_nil] at hjl
      omega
    have hp : (j - 1) / 2 < l.length := by omega
    rw [nth_append_lt _ _ _ hp, nth_append_lt _ _ _ hjlt]
    exact hl j hj0 hjlt
  · intro h0 j hjl hpar
    exfalso
    simp only [List.length_append, List.length_cons, List.length_nil] at hjl
    omega

/-- `push` preserves the heap property. -/
theorem push_isHeap (htot : ∀ a b, le a b = true ∨ le b a = true)
    (htr : ∀ a b c, le a b = true → le b c = true → le a c = true)
    (l : List V) (v : V) (hl : IsHeap le l) :
    IsHeap le (PriorityQueue.push le l v) := by
  have hpush : PriorityQueue.push le l v =
      heapifyUpAux le l.length (l ++ [v]) l.length := by
    unfold PriorityQueue.push heapifyUp
    simp
  rw [hpush]
  exact heapifyUpAux_isHeap htot htr l.length (l ++ [v]) l.length
    (le_refl _) (by simp) (upok_push l v hl)

end HeapLemmas

end SolverGraph

namespace SolverGraph

section HeapDownLemmas

variable {V : Type} [Inhabited V] {le : V → V → Bool}

/-- Case analysis of the source's `smallest` selection: either no child
is smaller (and `smallest = index`), or `smallest` is a child in bounds
that is at most the parent and both children. -/
theorem downSmallest_spec (htot : ∀ a b, le a b = true ∨ le b a = true)
    (htr : ∀ a b c, le a b = true → le b c = true → le a c = true)
    (l : List V) (i : Nat) :
    (downSmallest le l i = i ∧
      (∀ c, ((c = 2 * i + 1 ∨ c = 2 * i + 2) ∧ c < l.length) →
        le (nth l i) (nth l c) = true)) ∨
    ((downSmallest le l i = 2 * i + 1 ∨ downSmallest le l i = 2 * i + 2) ∧
      downSmallest le l i < l.length ∧
      le (nth l (downSmallest le l i)) (nth l i) = true ∧
      (∀ c, ((c = 2 * i + 1 ∨ c = 2 * i + 2) ∧ c < l.length) →
        le (nth l (downSmallest le l i)) (nth l c) = true)) := by
  by_cases h1 : 2 * i + 1 < l.length ∧ ¬ le (nth l i) (nth l (2 * i + 1)) = true
  · have hle1 : le (nth l (2 * i + 1)) (nth l i) = true :=
      (htot _ _).resolve_left h1.2
    by_cases h2 : 2 * i + 2 < l.length ∧
        ¬ le (nth l (2 * i + 1)) (nth l (2 * i + 2)) = true
    · have hval : downSmallest le l i = 2 * i + 2 := by
        simp only [downSmallest]
        rw [if_pos h1, if_pos h2]
      have hle2 : le (nth l (2 * i + 2)) (nth l (2 * i + 1)) = true :=
        (htot _ _).resolve_left h2.2
      refine Or.inr ⟨Or.inr hval, hval ▸ h2.1, ?_, ?_⟩
      · rw [hval]
        exact htr _ _ _ hle2 hle1
      · intro c hc
        rw [hval]
        rcases hc.1 with rfl | rfl
        · exact hle2
        · exact le_self htot _
    · have hval : downSmallest le l i = 2 * i + 1 := by
        simp only [downSmallest]
        rw [if_pos h1, if_neg h2]
      refine Or.inr ⟨Or.inl hval, hval ▸ h1.1, hval ▸ hle1, ?_⟩
      intro c hc
      rw [hval]
      rcases hc.1 with rfl | rfl
      · exact le_self htot _
      · rcases not_and_or.mp h2 with h | h
        · exact absurd hc.2 h
        · exact not_not.mp h
  · by_cases h2 : 2 * i + 2 < l.length ∧ ¬ le (nth l i) (nth l (2 * i + 2)) = true
    · have hval : downSmallest le l i = 2 * i + 2 := by
        simp only [downSmallest]
        rw [if_neg h1, if_pos h2]
      have hle2 : le (nth l (2 * i + 2)) (nth l i) = true :=
        (htot _ _).resolve_left h2.2
      refine Or.inr ⟨Or.inr hval, hval ▸ h2.1, hval ▸ hle2, ?_⟩
      intro c hc
      rw [hval]
      rcases hc.1 with rfl | rfl
      · rcases not_and_or.mp h1 with h | h
        · exact absurd hc.2 h
        · exact htr _ _ _ hle2 (not_not.mp h)
      · exact le_self htot _
    · have hval : downSmallest le l i = i := by
        simp only [downSmallest]
        rw [if_neg h1, if_neg h2]
      refine Or.inl ⟨hval, ?_⟩
      intro c hc
      rcases hc.1 with rfl | rfl
      · rcases not_and_or.mp h1 with h | h
        · exact absurd hc.2 h
        · exact not_not.mp h
      · rcases not_and_or.mp h2 with h | h
        · exact absurd hc.2 h
        · exact not_not.mp h

/-- One `heapify_down` swap preserves the sift-down invariant at the
chosen child. -/
theorem downok_step (htot : ∀ a b, le a b = true ∨ le b a = true)
    (htr : ∀ a b c, le a b = true → le b c = true → le a c = true)
    (l : List V) (i s : Nat) (hdown : DownOk le l i)
    (hchild : s = 2 * i + 1 ∨ s = 2 * i + 2) (hslen : s < l.length)
    (hsle : le (nth l s) (nth l i) = true)
    (hsmin : ∀ c, ((c = 2 * i + 1 ∨ c = 2 * i + 2) ∧ c < l.length) →
      le (nth l s) (nth l c) = true) :
    DownOk le (lswap l i s) s := by
  have his : i < s := by omega
  have hil : i < l.length := lt_trans his hslen
  have hpar_s : (s - 1) / 2 = i := by omega
  have nA : nth (lswap l i s) i = nth l s := nth_lswap_fst l i s hil hslen
  have nB : nth (lswap l i s) s = nth l i := nth_lswap_snd l i s hil hslen
  have nC : ∀ k, k ≠ i → k ≠ s → nth (lswap l i s) k = nth l k :=
    fun k h1 h2 => nth_lswap_other l i s k h1 h2
  constructor
  · intro j hj0 hjl hjpar
    rw [length_lswap] at hjl
    by_cases hji : j = i
    · subst hji
      rw [nC ((j - 1) / 2) (by omega) (by omega), nA]
      exact hdown.2 hj0 s hslen hpar_s
    · by_cases hjs : j = s
      · subst hjs
        rw [hpar_s, nA, nB]
        exact hsle
      · by_cases hpi : (j - 1) / 2 = i
        · rw [hpi, nA, nC j hji hjs]
          exact hsmin j ⟨by omega, hjl⟩
        · rw [nC ((j - 1) / 2) hpi hjpar, nC j hji hjs]
          exact hdown.1 j hj0 hjl hpi
  · intro h0s j hjl hjpar
    rw [length_lswap] at hjl
    have hj_gt : s < j := by omega
    rw [hpar_s, nA, nC j (by omega) (by omega)]
    have h := hdown.1 j (by omega) hjl (by omega)
    rw [hjpar] at h
    exact h

/-- `heapify_down` turns the sift-down invariant into the heap
property. -/
theorem heapifyDownAux_isHeap (htot : ∀ a b, le a b = true ∨ le b a = true)
    (htr : ∀ a b c, le a b = true → le b c = true → le a c = true) :
    ∀ (fuel : Nat) (l : List V) (i : Nat), l.length - i ≤ fuel →
      DownOk le l i → IsHeap le (heapifyDownAux le fuel l i) := by
  intro fuel
  induction fuel with
  | zero =>
      intro l i hif hdown
      show IsHeap le l
      intro j hj0 hjl
      exact hdown.1 j hj0 hjl (by omega)
  | succ fuel ih =>
      intro l i hif hdown
      rw [heapifyDownAux]
      show IsHeap le
        (if downSmallest le l i ≠ i then
          heapifyDownAux le fuel (lswap l i (downSmallest le l i)) (downSmallest le l i)
        else l)
      rcases downSmallest_spec htot htr l i with ⟨hsi, hmin⟩ |
        ⟨hchild, hslen, hsle, hsmin⟩
      · rw [if_neg (by omega)]
        intro j hj0 hjl
        by_cases hpar : (j - 1) / 2 = i
        · rw [hpar]
          exact hmin j ⟨by omega, hjl⟩
        · exact hdown.1 j hj0 hjl hpar
      · have hne : downSmallest le l i ≠ i := by omega
        rw [if_pos hne]
        apply ih
        · rw [length_lswap]
          omega
        · exact downok_step htot htr l i (downSmallest le l i) hdown hchild
            hslen hsle hsmin

/-- `pop` on a non-empty heap returns the root. -/
theorem pop_fst (l : List V) (hl : l ≠ []) :
    (PriorityQueue.pop le l).1 = some (nth l 0) := by
  unfold PriorityQueue.pop
  rw [if_neg (by simpa [List.isEmpty_iff] using hl)]
  have hlen : 0 < l.length := List.length_pos.mpr hl
  have hb : l.length - 1 < (lswap l 0 (l.length - 1)).length := by
    rw [length_lswap]
    omega
  show (lswap l 0 (l.length - 1)).getLast? = some (nth l 0)
  rw [List.getLast?_eq_getElem?, length_lswap, List.getElem?_eq_getElem hb]
  rw [← nth_eq_getElem _ _ hb, nth_lswap_snd l 0 (l.length - 1) hlen (by omega)]

/-- `pop` preserves the heap property. -/
theorem pop_isHeap (htot : ∀ a b, le a b = true ∨ le b a = true)
    (htr : ∀ a b c, le a b = true → le b c = true → le a c = true)
    (l : List V) (hl : IsHeap le l) :
    IsHeap le (PriorityQueue.pop le l).2 := by
  unfold PriorityQueue.pop
  by_cases h : l.isEmpty
  · rw [if_pos h]
    exact hl
  · rw [if_neg h]
    show IsHeap le (heapifyDown le ((lswap l 0 (l.length - 1)).dropLast) 0)
    unfold heapifyDown
    apply heapifyDownAux_isHeap htot htr _ _ _ (by omega)
    constructor
    · intro j hj0 hjl hjp
      have hlen2 : ((lswap l 0 (l.length - 1)).dropLast).length = l.length - 1 := by
        rw [List.length_dropLast, length_lswap]
      rw [hlen2] at hjl
      have e1 : ∀ k, 0 < k → k < l.length - 1 →
          nth ((lswap l 0 (l.length - 1)).dropLast) k = nth l k := by
        intro k hk0 hkl
        rw [nth_dropLast _ _ (by rw [length_lswap]; omega),
          nth_lswap_other l 0 (l.length - 1) k (by omega) (by omega)]
      rw [e1 j hj0 hjl, e1 ((j - 1) / 2) (by omega) (by omega)]
      exact hl j hj0 (by omega)
    · intro h0
      exact absurd h0 (lt_irrefl 0)

/-- Every reachable queue state satisfies the heap property. -/
theorem reachable_isHeap (htot : ∀ a b, le a b = true ∨ le b a = true)
    (htr : ∀ a b c, le a b = true → le b c = true → le a c = true)
    {q : List V} (hq : ReachablePQ le q) : IsHeap le q := by
  induction hq with
  | empty =>
      intro j hj0 hjl
      simp at hjl
  | push l v _ ih => exact push_isHeap htot htr l v ih
  | pop l _ ih => exact pop_isHeap htot htr l ih

end HeapDownLemmas

end SolverGraph

namespace SolverVrpModel

/-- The stop map only returns indices of existing stops. -/
theorem stopMap_lt {stops : List InputStop} {id : String} {j : Nat}
    (h : stopMap stops id = some j) : j < stops.length := by
  unfold stopMap at h
  obtain ⟨p, hp, rfl⟩ := Option.map_eq_some'.mp h
  have hmem : p ∈ (stops.enum.filter fun q => q.2.id = id) := by
    have hlen := List.getLast?_eq_getElem? (stops.enum.filter fun q => q.2.id = id)
    rw [hlen] at hp
    obtain ⟨hb, hg⟩ := List.getElem?_eq_some.mp hp
    exact hg ▸ List.getElem_mem hb
  obtain ⟨i0, s0⟩ := p
  have := List.mem_enum (List.mem_of_mem_filter hmem)
  simpa using this.1

/-- A stop with a resolved target exists. -/
theorem stopTarget_src_lt {stops : List InputStop} {i j : Nat}
    (h : stopTarget stops i = some j) : i < stops.length := by
  unfold stopTarget at h
  by_contra hn
  rw [List.getElem?_eq_none (by omega)] at h
  cases h

/-- A resolved target is an existing stop index. -/
theorem stopTarget_tgt_lt {stops : List InputStop} {i j : Nat}
    (h : stopTarget stops i = some j) : j < stops.length := by
  unfold stopTarget at h
  rcases hg : stops[i]? with _ | s
  · rw [hg] at h
    cases h
  · rw [hg] at h
    dsimp only at h
    rcases hh : s.precedes.bind List.head? with _ | id
    · rw [hh] at h
      cases h
    · rw [hh] at h
      exact stopMap_lt h

/-- `isTargetB` decides being a resolved precedence target. -/
theorem isTargetB_iff (stops : List InputStop) (n : Nat) :
    isTargetB stops n = true ↔ ∃ k, stopTarget stops k = some n := by
  unfold isTargetB
  rw [List.any_eq_true]
  constructor
  · rintro ⟨k, _, hk⟩
    exact ⟨k, by simpa using hk⟩
  · rintro ⟨k, hk⟩
    exact ⟨k, List.mem_range.mpr (stopTarget_src_lt hk), by simpa using hk⟩

/-- Unit-list prefixes grow one optional unit per index. -/
theorem specUnitsUpTo_succ (stops : List InputStop) (i : Nat) :
    specUnitsUpTo stops (i + 1) =
      specUnitsUpTo stops i ++ (specUnitF stops i).toList := by
  unfold specUnitsUpTo
  rw [List.range_succ, List.filterMap_append]
  rcases h : specUnitF stops i with _ | u <;> simp [h]

/-- The number of units contributed by the first `i` indices is the
number of non-target indices among them. -/
theorem specUnitsUpTo_length (stops : List InputStop) :
    ∀ i, (specUnitsUpTo stops i).length = nonTargetCount stops i := by
  intro i
  induction i with
  | zero => rfl
  | succ i ih =>
      rw [specUnitsUpTo_succ, List.length_append, ih]
      unfold nonTargetCount
      rw [List.range_succ, List.filter_append, List.length_append]
      unfold specUnitF
      by_cases h : isTargetB stops i = true <;> simp [h]

/-- Membership in the closed-form unit list. -/
theorem mem_specUnits {stops : List InputStop} {pu : PlanUnit} :
    pu ∈ specUnits stops ↔
      ∃ k, k < stops.length ∧ specUnitF stops k = some pu := by
  unfold specUnits specUnitsUpTo
  rw [List.mem_filterMap]
  constructor
  · rintro ⟨k, hk, hf⟩
    exact ⟨k, List.mem_range.mp hk, hf⟩
  · rintro ⟨k, hk, hf⟩
    exact ⟨k, List.mem_range.mpr hk, hf⟩

/-- Extraction from `precedesOkB`. -/
theorem prec_of {input : Input} (h : precedesOkB input = true)
    {s : InputStop} (hs : s ∈ input.stops) :
    (s.precedes.map List.length).getD 0 ≤ 1 := by
  have := List.all_eq_true.mp h s hs
  simpa using this

/-- Extraction from `targetsResolveB`. -/
theorem resolve_of {input : Input} (h : targetsResolveB input = true)
    {i : Nat} {s : InputStop} {id : String}
    (hget : input.stops[i]? = some s)
    (hhead : s.precedes.bind List.head? = some id) :
    (stopMap input.stops id).isSome := by
  have hi : i < input.stops.length := by
    by_contra hn
    rw [List.getElem?_eq_none (by omega)] at hget
    cases hget
  have := List.all_eq_true.mp h i (List.mem_range.mpr hi)
  rw [hget] at this
  dsimp only at this
  rw [hhead] at this
  simpa using this

/-- Extraction from `targetsDistinctB`. -/
theorem distinct_of {input : Input} (h : targetsDistinctB input = true)
    {i j k : Nat} (hi : stopTarget input.stops i = some k)
    (hj : stopTarget input.stops j = some k) : i = j := by
  have h1 := List.all_eq_true.mp h i (List.mem_range.mpr (stopTarget_src_lt hi))
  have h2 := List.all_eq_true.mp h1 j (List.mem_range.mpr (stopTarget_src_lt hj))
  rw [hi, hj] at h2
  simpa using h2

/-- Extraction from `targetsForwardB`. -/
theorem forward_of {input : Input} (h : targetsForwardB input = true)
    {i j : Nat} (hi : stopTarget input.stops i = some j) : i < j := by
  have h1 := List.all_eq_true.mp h i (List.mem_range.mpr (stopTarget_src_lt hi))
  rw [hi] at h1
  simpa using h1

/-- Extraction from `noChainB`. -/
theorem chain_of {input : Input} (h : noChainB input = true)
    {i j : Nat} (hi : stopTarget input.stops i = some j) :
    stopTarget input.stops j = none := by
  have h1 := List.all_eq_true.mp h i (List.mem_range.mpr (stopTarget_src_lt hi))
  rw [hi] at h1
  simpa [Option.isNone_iff_eq_none] using h1

end SolverVrpModel

namespace SolverVrpModel

/-- The plan-unit loop of `Model::from` computes the closed-form unit
list on inputs whose precedence structure is single-target, resolvable,
injective, forward-pointing and chain-free.  The induction is over the
unprocessed suffix, with the claimed set characterised as "already
enumerated, or target of an already enumerated stop". -/
theorem buildPlanUnits_spec (input : Input)
    (hPrec : precedesOkB input = true)
    (hRes : targetsResolveB input = true)
    (hDist : targetsDistinctB input = true)
    (hFwd : targetsForwardB input = true)
    (hChain : noChainB input = true) :
    ∀ (rest : List InputStop) (i : Nat) (units : List PlanUnit)
      (claimed : List Nat),
      input.stops.drop i = rest →
      i ≤ input.stops.length →
      units = specUnitsUpTo input.stops i →
      (∀ m, m ∈ claimed ↔
        (m < i ∨ ∃ k, k < i ∧ stopTarget input.stops k = some m)) →
      buildPlanUnits (stopMap input.stops) (List.enumFrom i rest) units claimed =
        .ok (specUnits input.stops) := by
  intro rest
  induction rest with
  | nil =>
      intro i units claimed hdrop hi hu hc
      have hlen : input.stops.length - i = 0 := by
        have := congrArg List.length hdrop
        simpa [List.length_drop] using this
      have hieq : i = input.stops.length := by omega
      subst hieq
      rw [hu]
      rfl
  | cons s rest ih =>
      intro i units claimed hdrop hi hu hc
      have hget : input.stops[i]? = some s := by
        have h0 := List.getElem?_drop input.stops i 0
        rw [hdrop] at h0
        simpa using h0.symm
      have hi_lt : i < input.stops.length := by
        by_contra hn
        rw [List.getElem?_eq_none (by omega)] at hget
        cases hget
      have hdrop' : input.stops.drop (i + 1) = rest := by
        have h2 : input.stops.drop (i + 1) = List.drop 1 (input.stops.drop i) := by
          rw [List.drop_drop]
        rw [h2, hdrop]
        rfl
      have hs_mem : s ∈ input.stops := by
        obtain ⟨hb, hg⟩ := List.getElem?_eq_some.mp hget
        exact hg ▸ List.getElem_mem hb
      rw [show List.enumFrom i (s :: rest) = (i, s) :: List.enumFrom (i + 1) rest
        from rfl]
      rw [buildPlanUnits]
      by_cases hmem : i ∈ claimed
      · rw [if_pos hmem]
        have hk0ex : ∃ k, k < i ∧ stopTarget input.stops k = some i := by
          rcases (hc i).1 hmem with h | h
          · omega
          · exact h
        obtain ⟨k0, hk0_lt, hk0⟩ := hk0ex
        have hti : stopTarget input.stops i = none := chain_of hChain hk0
        apply ih (i + 1) units claimed hdrop' (by omega)
        · rw [specUnitsUpTo_succ]
          have hf : specUnitF input.stops i = none := by
            unfold specUnitF
            rw [if_pos ((isTargetB_iff _ _).2 ⟨k0, hk0⟩)]
          rw [hf, hu]
          simp
        · intro m
          constructor
          · intro hm
            rcases (hc m).1 hm with h | ⟨k, hk, hkt⟩
            · exact Or.inl (by omega)
            · exact Or.inr ⟨k, by omega, hkt⟩
          · intro hm
            rcases hm with h | ⟨k, hk, hkt⟩
            · rcases Nat.lt_succ_iff_lt_or_eq.mp h with h' | rfl
              · exact (hc m).2 (Or.inl h')
              · exact hmem
            · rcases Nat.lt_succ_iff_lt_or_eq.mp hk with h' | rfl
              · exact (hc m).2 (Or.inr ⟨k, h', hkt⟩)
              · rw [hti] at hkt
                cases hkt
      · rw [if_neg hmem]
        have hnt : ∀ k, stopTarget input.stops k ≠ some i := by
          intro k hkt
          exact hmem ((hc i).2 (Or.inr ⟨k, forward_of hFwd hkt, hkt⟩))
        have hntB : isTargetB input.stops i = false := by
          rw [← Bool.not_eq_true, isTargetB_iff]
          rintro ⟨k, hk⟩
          exact hnt k hk
        have hp1 : ¬ (s.precedes.map List.length).getD 0 > 1 := by
          have := prec_of hPrec hs_mem
          omega
        rw [if_neg hp1]
        split
        · -- the stop declares a precedence target `id`
          rename_i id hhead
          have hres := resolve_of hRes hget hhead
          split
          · rename_i hnone
            rw [hnone] at hres
            simp at hres
          · rename_i j hj
            have htgt : stopTarget input.stops i = some j := by
              unfold stopTarget
              rw [hget]
              dsimp only
              rw [hhead]
              dsimp only
              exact hj
            have hij : i < j := forward_of hFwd htgt
            have hjmem : j ∉ claimed := by
              intro hin
              rcases (hc j).1 hin with h | ⟨k, hk, hkt⟩
              · omega
              · have := distinct_of hDist hkt htgt
                omega
            rw [if_neg hjmem]
            apply ih (i + 1) _ _ hdrop' (by omega)
            · rw [specUnitsUpTo_succ]
              have hf : specUnitF input.stops i =
                  some { index := nonTargetCount input.stops i, stops := [i, j] } := by
                unfold specUnitF
                rw [if_neg (by simp [hntB]), htgt]
                rfl
              rw [hf, hu, specUnitsUpTo_length]
              rfl
            · intro m
              constructor
              · intro hm
                rcases List.mem_cons.mp hm with rfl | hm'
                · exact Or.inl (by omega)
                · rcases List.mem_cons.mp hm' with rfl | hm''
                  · exact Or.inr ⟨i, by omega, htgt⟩
                  · rcases (hc m).1 hm'' with h | ⟨k, hk, hkt⟩
                    · exact Or.inl (by omega)
                    · exact Or.inr ⟨k, by omega, hkt⟩
              · intro hm
                rcases hm with h | ⟨k, hk, hkt⟩
                · rcases Nat.lt_succ_iff_lt_or_eq.mp h with h' | rfl
                  · exact List.mem_cons_of_mem _
                      (List.mem_cons_of_mem _ ((hc m).2 (Or.inl h')))
                  · exact List.mem_cons_self _ _
                · rcases Nat.lt_succ_iff_lt_or_eq.mp hk with h' | rfl
                  · exact List.mem_cons_of_mem _
                      (List.mem_cons_of_mem _ ((hc m).2 (Or.inr ⟨k, h', hkt⟩)))
                  · rw [htgt] at hkt
                    obtain rfl : j = m := Option.some.inj hkt
                    exact List.mem_cons_of_mem _ (List.mem_cons_self _ _)
        · -- the stop declares no precedence target
          rename_i hhead
          have hti : stopTarget input.stops i = none := by
            unfold stopTarget
            rw [hget]
            dsimp only
            rw [hhead]
          apply ih (i + 1) _ _ hdrop' (by omega)
          · rw [specUnitsUpTo_succ]
            have hf : specUnitF input.stops i =
                some { index := nonTargetCount input.stops i, stops := [i] } := by
              unfold specUnitF
              rw [if_neg (by simp [hntB]), hti]
              rfl
            rw [hf, hu, specUnitsUpTo_length]
            rfl
          · intro m
            constructor
            · intro hm
              rcases List.mem_cons.mp hm with rfl | hm'
              · exact Or.inl (by omega)
              · rcases (hc m).1 hm' with h | ⟨k, hk, hkt⟩
                · exact Or.inl (by omega)
                · exact Or.inr ⟨k, by omega, hkt⟩
            · intro hm
              rcases hm with h | ⟨k, hk, hkt⟩
              · rcases Nat.lt_succ_iff_lt_or_eq.mp h with h' | rfl
                · exact List.mem_cons_of_mem _ ((hc m).2 (Or.inl h'))
                · exact List.mem_cons_self _ _
              · rcases Nat.lt_succ_iff_lt_or_eq.mp hk with h' | rfl
                · exact List.mem_cons_of_mem _ ((hc m).2 (Or.inr ⟨k, h', hkt⟩))
                · rw [hti] at hkt
                  cases hkt

end SolverVrpModel

namespace SolverVrpModel

theorem buildStops_length (stops : List InputStop) :
    (buildStops stops).length = stops.length := by
  simp [buildStops]

theorem opt_toList_mem {α : Type} {o : Option α} {x : α}
    (h : x ∈ o.toList) : o = some x := by
  cases o <;> simp_all [Option.toList]

/-- Initial-stop resolution succeeds when every id resolves into the
built stop list. -/
theorem resolveInitialStops_ok (sm : String → Option Nat)
    (stopsVec : List Stop)
    (hlt : ∀ id j, sm id = some j → j < stopsVec.length) :
    ∀ (sts : List InitialStop), (∀ st ∈ sts, (sm st.id).isSome) →
      ∃ out, resolveInitialStops sm stopsVec sts = .ok out := by
  intro sts
  induction sts with
  | nil => exact fun _ => ⟨[], rfl⟩
  | cons st rest ih =>
      intro h
      obtain ⟨j, hj⟩ := Option.isSome_iff_exists.mp
        (h st (List.mem_cons_self _ _))
      obtain ⟨out, hout⟩ := ih fun x hx => h x (List.mem_cons_of_mem _ hx)
      rw [resolveInitialStops]
      split
      · rename_i hnone
        rw [hnone] at hj
        cases hj
      · rename_i stopIndex hsome
        split
        · rename_i hnone2
          rw [List.getElem?_eq_getElem (hlt _ _ hsome)] at hnone2
          cases hnone2
        · rename_i modelStop hsome2
          rw [hout]
          exact ⟨_, rfl⟩

/-- Vehicle construction succeeds when every initial-stop id
resolves. -/
theorem buildVehicles_ok (sm : String → Option Nat) (stopsVec : List Stop)
    (hlt : ∀ id j, sm id = some j → j < stopsVec.length) :
    ∀ (lst : List (Nat × InputVehicle)),
      (∀ p ∈ lst, ∀ st ∈ p.2.initialStops.getD [], (sm st.id).isSome) →
      ∃ out, buildVehicles sm stopsVec lst = .ok out := by
  intro lst
  induction lst with
  | nil => exact fun _ => ⟨[], rfl⟩
  | cons p rest ih =>
      intro h
      obtain ⟨index, vehicle⟩ := p
      obtain ⟨sts, hsts⟩ := resolveInitialStops_ok sm stopsVec hlt
        (vehicle.initialStops.getD [])
        (h (index, vehicle) (List.mem_cons_self _ _))
      obtain ⟨out, hout⟩ := ih fun x hx st hst =>
        h x (List.mem_cons_of_mem _ hx) st hst
      rw [buildVehicles, hsts, hout]
      exact ⟨_, rfl⟩

/-- Partition: every stop index belongs to exactly one closed-form plan
unit. -/
theorem specUnits_partition (input : Input)
    (hDist : targetsDistinctB input = true)
    (hChain : noChainB input = true) :
    ∀ n, n < input.stops.length →
      ∃! pu, pu ∈ specUnits input.stops ∧ n ∈ pu.stops := by
  intro n hn
  by_cases hT : isTargetB input.stops n = true
  · obtain ⟨k0, hk0⟩ := (isTargetB_iff _ _).1 hT
    have hk0nt : isTargetB input.stops k0 = false := by
      rw [← Bool.not_eq_true, isTargetB_iff]
      rintro ⟨k', hk'⟩
      have hnone := chain_of hChain hk'
      rw [hnone] at hk0
      cases hk0
    refine ⟨{ index := nonTargetCount input.stops k0, stops := [k0, n] },
      ⟨?_, ?_⟩, ?_⟩
    · rw [mem_specUnits]
      refine ⟨k0, stopTarget_src_lt hk0, ?_⟩
      unfold specUnitF
      rw [if_neg (by simp [hk0nt]), hk0]
      rfl
    · simp
    · rintro pu ⟨hpu, hnin⟩
      obtain ⟨k, hk_len, hfk⟩ := mem_specUnits.1 hpu
      unfold specUnitF at hfk
      by_cases hkT : isTargetB input.stops k = true
      · rw [if_pos hkT] at hfk
        cases hfk
      · rw [if_neg hkT] at hfk
        rw [← Option.some.inj hfk] at hnin ⊢
        rcases List.mem_cons.mp hnin with rfl | hmem2
        · exact absurd hT (by simp [hkT])
        · have htk : stopTarget input.stops k = some n := opt_toList_mem hmem2
          have hkk0 : k = k0 := distinct_of hDist htk hk0
          subst hkk0
          simp [htk]
  · refine ⟨{ index := nonTargetCount input.stops n,
              stops := n :: (stopTarget input.stops n).toList }, ⟨?_, ?_⟩, ?_⟩
    · rw [mem_specUnits]
      refine ⟨n, hn, ?_⟩
      unfold specUnitF
      rw [if_neg (by simp [hT])]
    · exact List.mem_cons_self _ _
    · rintro pu ⟨hpu, hnin⟩
      obtain ⟨k, hk_len, hfk⟩ := mem_specUnits.1 hpu
      unfold specUnitF at hfk
      by_cases hkT : isTargetB input.stops k = true
      · rw [if_pos hkT] at hfk
        cases hfk
      · rw [if_neg hkT] at hfk
        rw [← Option.some.inj hfk] at hnin ⊢
        rcases List.mem_cons.mp hnin with rfl | hmem2
        · rfl
        · exfalso
          have htk : stopTarget input.stops k = some n := opt_toList_mem hmem2
          exact hT ((isTargetB_iff _ _).2 ⟨k, htk⟩)

/-- Pairing: a stop with a resolved target shares its closed-form plan
unit with the target. -/
theorem specUnits_pairing (input : Input) (hChain : noChainB input = true) :
    ∀ i j, stopTarget input.stops i = some j →
      ∃ pu ∈ specUnits input.stops, i ∈ pu.stops ∧ j ∈ pu.stops := by
  intro i j ht
  have hint : isTargetB input.stops i = false := by
    rw [← Bool.not_eq_true, isTargetB_iff]
    rintro ⟨k, hk⟩
    have hnone := chain_of hChain hk
    rw [hnone] at ht
    cases ht
  refine ⟨{ index := nonTargetCount input.stops i, stops := [i, j] },
    ?_, by simp, by simp⟩
  rw [mem_specUnits]
  refine ⟨i, stopTarget_src_lt ht, ?_⟩
  unfold specUnitF
  rw [if_neg (by simp [hint]), ht]
  rfl

end SolverVrpModel

/-- C6 counterexample: two inputs satisfying the claim's hypotheses
(single targets, resolvable, no index targeted twice) on which the
claimed conclusion fails.  With a backward-pointing target the
construction panics instead of producing a Model; with a chain
`a → b → c` it produces a Model in which `b` precedes `c` but shares no
plan unit with it. -/
theorem C6_cex_backward_and_chain :
    (SolverVrpModel.precedesOkB backwardPrecedesInput = true ∧
      SolverVrpModel.targetsResolveB backwardPrecedesInput = true ∧
      SolverVrpModel.targetsDistinctB backwardPrecedesInput = true ∧
      SolverVrpModel.Model.from_ backwardPrecedesInput =
        .panicked "stop a is already part of a plan unit") ∧
    (SolverVrpModel.precedesOkB chainPrecedesInput = true ∧
      SolverVrpModel.targetsResolveB chainPrecedesInput = true ∧
      SolverVrpModel.targetsDistinctB chainPrecedesInput = true ∧
      SolverVrpModel.stopTarget chainPrecedesInput.stops 1 = some 2 ∧
      SolverVrpModel.Model.from_ chainPrecedesInput = .ok chainModel ∧
      ∀ pu ∈ chainModel.planUnits, ¬ (1 ∈ pu.stops ∧ 2 ∈ pu.stops)) := by
  refine ⟨⟨?_, ?_, ?_, ?_⟩, ?_, ?_, ?_, ?_, ?_, ?_⟩ <;> decide

/-- C6 (amended): under the claim's hypotheses strengthened by the two
conditions the counterexamples force — every resolved target lies
strictly after its source in stop order, and no target declares a
precedence itself (plus resolvable vehicle initial stops) — `Model::from`
succeeds, its PlanUnits partition the stop indices, and every preceding
stop shares its PlanUnit with its target. -/
theorem C6_plan_units_partition (input : SolverVrpModel.Input)
    (hPrec : SolverVrpModel.precedesOkB input = true)
    (hRes : SolverVrpModel.targetsResolveB input = true)
    (hDist : SolverVrpModel.targetsDistinctB input = true)
    (hFwd : SolverVrpModel.targetsForwardB input = true)
    (hChain : SolverVrpModel.noChainB input = true)
    (hVeh : SolverVrpModel.vehiclesResolveB input = true) :
    ∃ m, SolverVrpModel.Model.from_ input = .ok m ∧
      (∀ n, n < input.stops.length →
        ∃! pu, pu ∈ m.planUnits ∧ n ∈ pu.stops) ∧
      (∀ i j, SolverVrpModel.stopTarget input.stops i = some j →
        ∃ pu ∈ m.planUnits, i ∈ pu.stops ∧ j ∈ pu.stops) := by
  have hunits := SolverVrpModel.buildPlanUnits_spec input hPrec hRes hDist
    hFwd hChain input.stops 0 [] [] (by simp) (by omega) rfl (by intro m; simp)
  have hlt : ∀ id j, SolverVrpModel.stopMap input.stops id = some j →
      j < (SolverVrpModel.buildStops input.stops).length := by
    intro id j hj
    rw [SolverVrpModel.buildStops_length]
    exact SolverVrpModel.stopMap_lt hj
  have hresolve : ∀ p ∈ input.vehicles.enum,
      ∀ st ∈ p.2.initialStops.getD [],
        (SolverVrpModel.stopMap input.stops st.id).isSome := by
    rintro ⟨i0, v0⟩ hp st hst
    have hv0 : v0 ∈ input.vehicles := by
      obtain ⟨hlt0, heq⟩ := List.mem_enum hp
      exact heq ▸ List.getElem_mem hlt0
    have := List.all_eq_true.mp hVeh v0 hv0
    exact List.all_eq_true.mp this st hst
  obtain ⟨vout, hvout⟩ := SolverVrpModel.buildVehicles_ok
    (SolverVrpModel.stopMap input.stops) (SolverVrpModel.buildStops input.stops)
    hlt input.vehicles.enum hresolve
  refine ⟨{ stops := SolverVrpModel.buildStops input.stops,
            planUnits := SolverVrpModel.specUnits input.stops,
            vehicles := vout }, ?_, ?_, ?_⟩
  · show (match SolverVrpModel.buildPlanUnits (SolverVrpModel.stopMap input.stops)
        input.stops.enum [] [] with
      | .error msg => SolverVrpModel.BuildResult.panicked msg
      | .ok planUnits =>
          match SolverVrpModel.buildVehicles (SolverVrpModel.stopMap input.stops)
              (SolverVrpModel.buildStops input.stops) input.vehicles.enum with
          | .error msg => SolverVrpModel.BuildResult.panicked msg
          | .ok vehicles =>
              .ok { stops := SolverVrpModel.buildStops input.stops,
                    planUnits := planUnits, vehicles := vehicles }) =
      SolverVrpModel.BuildResult.ok
        { stops := SolverVrpModel.buildStops input.stops,
          planUnits := SolverVrpModel.specUnits input.stops,
          vehicles := vout }
    rw [List.enum_eq_enumFrom, hunits]
    dsimp only
    rw [hvout]
  · exact SolverVrpModel.specUnits_partition input hDist hChain
  · exact SolverVrpModel.specUnits_pairing input hChain

/-- C6 witness: the amended theorem applied to the crate's
pickup/delivery test input. -/
theorem C6_plan_units_witness :
    ∃ m, SolverVrpModel.Model.from_ pickupDeliveryInput = .ok m ∧
      (∀ n, n < pickupDeliveryInput.stops.length →
        ∃! pu, pu ∈ m.planUnits ∧ n ∈ pu.stops) ∧
      (∀ i j, SolverVrpModel.stopTarget pickupDeliveryInput.stops i = some j →
        ∃ pu ∈ m.planUnits, i ∈ pu.stops ∧ j ∈ pu.stops) :=
  C6_plan_units_partition pickupDeliveryInput (by decide) (by decide)
    (by decide) (by decide) (by decide) (by decide)

/-- C1: evaluating `shortest_path` on the graph built from
`sample_nodes()` and `sample_weighted_edges()` with `from = 0, to = 2`.
The code returns `Some [0, 0]` — the values of the nodes at positions 1
and 2 (all fixture node values are `0`, and the reconstruction loop
never pushes the start node) — not the claimed `[0, 1, 2]`. -/
theorem C1_shortest_path_sample_eval :
    shortestPath 20 sampleWeightedGraph 0 2 = .found [0, 0] ∧
      SPResult.found [0, 0] ≠ SPResult.found [0, 1, 2] :=
  ⟨by decide, by decide⟩

/-- C2 counterexample: on equal values `Solution::best` returns the
right-hand operand, not the left one as claimed — here
`solTie.value = (Solution.new).value = 0` but `best` yields
`Solution.new`, which differs from `solTie`. -/
theorem C2_cex_best_tie_returns_right :
    solTie.value = Solution.new.value ∧
      Solution.best solTie Solution.new = Solution.new ∧
      Solution.new ≠ solTie := by
  refine ⟨by decide, by decide, by decide⟩

/-- C2 (amended): `Solution::best` returns the operand with the strictly
lower value and returns the right-hand operand `b` whenever `a`'s value
is not strictly lower (in particular on ties); consequently its value is
less than or equal to both. -/
theorem C2_best_keeps_lower_value (a b : Solution) :
    ((a.best b).value ≤ a.value ∧ (a.best b).value ≤ b.value) ∧
      (a.best b = a ∨ a.best b = b) ∧
      (a.value < b.value → a.best b = a) ∧
      (¬ a.value < b.value → a.best b = b) := by
  unfold Solution.best
  by_cases h : a.value < b.value
  · rw [if_pos h]
    exact ⟨⟨le_refl _, le_of_lt h⟩, Or.inl rfl, fun _ => rfl, fun h' => absurd h h'⟩
  · rw [if_neg h]
    exact ⟨⟨le_of_not_lt h, le_refl _⟩, Or.inr rfl, fun h' => absurd h' h, fun _ => rfl⟩

/-- C2 witness: the amended theorem applied at solutions with values `0`
and `1`. -/
theorem C2_best_witness : Solution.best solLow solHigh = solLow :=
  (C2_best_keeps_lower_value solLow solHigh).2.2.1 (by norm_num [solLow, solHigh])

/-- C3: a stop with two precedence targets makes `Model::from` panic
with `"stop a has too many precedes"` — the build aborts the process
instead of returning a structured, recoverable error. -/
theorem C3_two_precedes_panics :
    Model.from_ tooManyPrecedesInput =
      .panicked "stop a has too many precedes" := by
  decide

/-- C4 counterexample: a solver without a seeded solution and with
`max_iterations = 0` returns `None` from `solve`, not `Some`. -/
theorem C4_cex_unseeded_zero_iterations :
    emptySolver.solve = none := rfl

/-- C4 (amended): `solve` returns the seed (possibly `None`) unchanged
when `max_iterations = 0`; it returns `Some` whenever the counter starts
at `0` and at least one iteration runs; and an iteration in which every
operator produces no candidate leaves the stored solution unchanged. -/
theorem C4_solve_yields_solution (M : Type) (s : Solver M) :
    (s.maxIterations = 0 → s.solve = s.solution) ∧
      (s.iterationCount = 0 → 1 ≤ s.maxIterations → ∃ sol, s.solve = some sol) ∧
      (∀ sol, s.solution = some sol →
        (∀ op ∈ s.operators, op s.model sol = none) →
        s.executeOperators.solution = some sol) := by
  refine ⟨?_, ?_, ?_⟩
  · intro h
    simp [Solver.solve, Solver.solveState, h, Solver.solveLoop]
  · intro h0 h1
    have hs : s.solve.isSome := by
      unfold Solver.solve Solver.solveState
      obtain ⟨f, hf⟩ : ∃ f, s.maxIterations - s.iterationCount = f + 1 :=
        ⟨s.maxIterations - 1, by omega⟩
      rw [hf, Solver.solveLoop, if_pos (by omega)]
      exact Solver.solveLoop_isSome f _ (Solver.executeOperators_isSome s)
    exact Option.isSome_iff_exists.mp hs
  · intro sol hsol hops
    unfold Solver.executeOperators
    rw [hsol]
    simp only [Option.getD_some]
    rw [Solver.foldl_none s.model s.operators sol hops]

/-- C4 witness: the amended theorem applied to the seeded zero-iteration
solver and to an unseeded two-iteration solver. -/
theorem C4_solve_witness :
    seededSolver.solve = some Solution.new ∧
      ∃ sol, (Solver.build () ([] : List (Unit → Solution → Option Solution)) 2 none).solve = some sol :=
  ⟨((C4_solve_yields_solution Unit seededSolver).1 rfl).trans rfl,
    (C4_solve_yields_solution Unit _).2.1 rfl (by decide)⟩

/-- C5: for a solver whose iteration counter starts at `0` (as built by
`SolverBuilder`), the counter at exit of the `solve` loop equals exactly
`max_iterations`. -/
theorem C5_iteration_count_exact (M : Type) (s : Solver M)
    (h : s.iterationCount = 0) :
    s.solveState.iterationCount = s.maxIterations := by
  unfold Solver.solveState
  rw [Solver.solveLoop_count (s.maxIterations - s.iterationCount) s (le_refl _), h]
  simp

/-- C5 witness: a concrete five-iteration solver ends with counter `5`. -/
theorem C5_iteration_count_witness :
    (Solver.build () ([] : List (Unit → Solution → Option Solution)) 5 none).solveState.iterationCount = 5 :=
  C5_iteration_count_exact Unit _ rfl

/-- C8: the weight reducer on optional weights: empty+empty is empty,
empty+one and one+empty keep the one, one+one sums. -/
theorem C8_reduce_cases (V : Type) [Add V] (a b : V) :
    SmallArray.reduce (V := V) .Empty (.SumArray .Empty) = some .Empty ∧
      SmallArray.reduce .Empty (.SumArray (.One b)) = some (.One b) ∧
      SmallArray.reduce (.One a) (.SumArray .Empty) = some (.One a) ∧
      SmallArray.reduce (.One a) (.SumArray (.One b)) = some (.One (a + b)) :=
  ⟨rfl, rfl, rfl, rfl⟩

/-- C9: `Random::chance` returns `true` without touching the generator
when numerator and denominator are equal, and otherwise consumes exactly
one `f64` draw, returning whether the draw is strictly below the ratio. -/
theorem C9_chance_frame (r : Random) (num den : ℚ) :
    (num = den → r.chance (num, den) = (true, r)) ∧
      (num ≠ den →
        r.chance (num, den) = (decide (r.f64.1 < num / den), r.f64.2)) := by
  constructor
  · intro h
    simp [Random.chance, h]
  · intro h
    simp [Random.chance, h, Random.f64]

/-- C9 witness: both branches at a concrete generator. -/
theorem C9_chance_witness :
    zeroRandom.chance (1, 1) = (true, zeroRandom) ∧
      zeroRandom.chance (3, 4) = (decide ((zeroRandom.f64.1 : ℚ) < 3 / 4), zeroRandom.f64.2) :=
  ⟨(C9_chance_frame zeroRandom 1 1).1 rfl,
    (C9_chance_frame zeroRandom 3 4).2 (by norm_num)⟩

/-- C10: `shortest_path(graph, v, v)` pops the target immediately with
an empty predecessor map, so it returns `Some` of the empty path for
every graph and node. -/
theorem C10_self_path_empty (g : Graph) (v fuel : Nat)
    (hv : v < g.nodes.length) (hf : 1 ≤ fuel) :
    shortestPath fuel g v v = .found [] := by
  obtain ⟨f, rfl⟩ : ∃ f, fuel = f + 1 := ⟨fuel - 1, by omega⟩
  simp [shortestPath, spLoop, PriorityQueue.push, PriorityQueue.pop,
    heapifyUp, heapifyUpAux, heapifyDown, heapifyDownAux, lswap, nth,
    reconstructLoop, mapInsert]

/-- C10 witness: the theorem applied to the sample graph at node `0`. -/
theorem C10_self_path_witness :
    shortestPath 5 sampleWeightedGraph 0 0 = .found [] :=
  C10_self_path_empty sampleWeightedGraph 0 5 (by decide) (by decide)

/-- C7: over any total preorder (in particular any total order), every
queue state reachable by a sequence of `push`/`pop` operations
satisfies the binary min-heap property, `pop` on the empty queue is
`None`, and `pop` on a non-empty queue returns a minimum of the elements
currently stored. -/
theorem C7_priority_queue_pop_min (V : Type) [Inhabited V]
    (le : V → V → Bool)
    (htot : ∀ a b, le a b = true ∨ le b a = true)
    (htr : ∀ a b c, le a b = true → le b c = true → le a c = true)
    (q : List V) (hq : ReachablePQ le q) :
    IsHeap le q ∧
      (q = [] → PriorityQueue.pop le q = (none, q)) ∧
      (q ≠ [] → ∃ m, (PriorityQueue.pop le q).1 = some m ∧ m ∈ q ∧
        ∀ x ∈ q, le m x = true) := by
  have hheap := reachable_isHeap htot htr hq
  refine ⟨hheap, ?_, ?_⟩
  · intro h
    subst h
    rfl
  · intro h
    refine ⟨nth q 0, pop_fst q h, ?_, ?_⟩
    · have h0 : 0 < q.length := List.length_pos.mpr h
      rw [nth_eq_getElem q 0 h0]
      exact List.getElem_mem h0
    · intro x hx
      obtain ⟨k, hk, rfl⟩ := List.mem_iff_getElem.mp hx
      rw [← nth_eq_getElem q k hk]
      exact isHeap_root_le htot htr q hheap k hk

/-- C7 witness: the theorem applied to the two-push queue `pqW` over the
usual order on `Nat`. -/
theorem C7_priority_queue_witness :
    pqW ≠ [] ∧ ∃ m, (PriorityQueue.pop natLe pqW).1 = some m ∧ m ∈ pqW ∧
      ∀ x ∈ pqW, natLe m x = true := by
  have h := C7_priority_queue_pop_min Nat natLe
    (fun a b => by simp [natLe]; omega)
    (fun a b c hab hbc => by simp [natLe] at hab hbc ⊢; omega)
    pqW
    (ReachablePQ.push _ 1 (ReachablePQ.push _ 3 ReachablePQ.empty))
  exact ⟨by decide, h.2.2 (by decide)⟩
